import Mathlib

/-!
Formal model of the choir workspace-manager core, shallowly embedded from the
Go sources: the backend registry (`internal/backend/registry.go`), the worktree
backend (`internal/backend/worktree/worktree.go`), the host setup runner
(`setup.go` of the worktree package), and the environment registry
(`internal/state/environment.go`).

Paths are modelled as strings or as lists of path components; the filesystem
and database are modelled as explicit association lists; external processes
(git, user commands) are modelled by explicit outcome parameters.
-/

namespace Choir

/-! ### Worktree backend: Status (worktree.go, `Status`)

`Status` stats the backendID path, then checks for the `.choir-agent` marker
file inside it.  The observable facts about one path are whether it is absent,
a non-directory, or a directory, and whether the marker file exists under it.
The filesystem guarantees that a marker file can only exist inside a directory;
that fact is a hypothesis of the theorem. -/

/-- What `os.Stat` reports for the workspace path. -/
inductive WtPathKind
  | absent
  | file
  | dir
deriving DecidableEq, Repr

/-- Backend state vocabulary (backend package `State*` constants). -/
inductive BackendState
  | running
  | stopped
  | creating
  | stopping
  | starting
  | destroying
  | notFound
  | error
deriving DecidableEq, Repr

/-- `backend.BackendStatus`: a state plus a free-text message. -/
structure BackendStatus where
  state : BackendState
  message : String
deriving DecidableEq, Repr

/-- The facts about a workspace path that `Status` observes. -/
structure WorkspaceObs where
  kind : WtPathKind
  hasMarker : Bool
deriving DecidableEq, Repr

/-- Worktree `Status`: `NotFound` if the path is absent, `Error` if it is not a
directory or lacks the marker file, `Running` otherwise.  The second component
is the returned Go `error`, which is `nil` (= `none`) on every path. -/
def statusW (obs : WorkspaceObs) : BackendStatus × Option String :=
  match obs.kind with
  | .absent => ({ state := .notFound, message := "worktree directory does not exist" }, none)
  | .file => ({ state := .error, message := "path exists but is not a directory" }, none)
  | .dir =>
    if obs.hasMarker then
      ({ state := .running, message := "worktree is ready" }, none)
    else
      ({ state := .error, message := "directory exists but is not a choir-managed worktree" }, none)

/-! ### Worktree backend: Start / Stop (worktree.go, `Start` / `Stop`)

Both verify that the worktree path exists and perform no further action. -/

/-- Worktree `Start`: returns `nil` when the path exists, a
"worktree not found" error otherwise.  No state is touched. -/
def startW (pathExists : Bool) : Option String :=
  if pathExists then none else some "worktree not found"

/-- Worktree `Stop`: identical shape to `Start`. -/
def stopW (pathExists : Bool) : Option String :=
  if pathExists then none else some "worktree not found"

/-! ### Worktree backend: Exec (worktree.go, `Exec`)

`Exec` stats the path, then runs the command through the shell.  Running
either ends with the process having exited (carrying an exit code, taken from
`ExitError.ExitCode()` when non-zero) or fails before the process can run. -/

/-- Outcome of `cmd.CombinedOutput()`: the process ran and exited with a code
(`exited out 0` is the success path, a non-zero code is the `exec.ExitError`
path), or the command could not be run at all (`errors.As` fails). -/
inductive RunOutcome
  | exited (output : String) (code : Int)
  | startFailure (output : String) (msg : String)
deriving DecidableEq, Repr

/-- Worktree `Exec`: returns `(output, exitCode, error)`. -/
def execW (pathExists : Bool) (outcome : RunOutcome) : String × Int × Option String :=
  if pathExists then
    match outcome with
    | .exited out code => (out, code, none)
    | .startFailure out msg => (out, -1, some msg)
  else
    ("", -1, some "worktree not found")

/-! ### Backend registry (registry.go)

The registry is a package-level map from backend type name to factory.
`Register` is a plain map assignment; `Get` looks the type up and invokes the
factory.  A factory returns a backend value or an error; backends themselves
are opaque here. -/

/-- Opaque backend value (only identity matters for the registry's contract). -/
abbrev BackendVal := Nat

/-- `backend.BackendConfig` (fields used by `Get`). -/
structure BackendConfig where
  name : String
  type : String
deriving DecidableEq, Repr

/-- `backend.BackendFactory`. -/
abbrev BackendFactory := BackendConfig → Except String BackendVal

/-- The registered factories, as the extensional content of the Go map. -/
abbrev BRegistry := List (String × BackendFactory)

/-- `Register`: `registry[backendType] = factory`, a plain map assignment that
overwrites any previous entry for the same type and always returns. -/
def registerB (r : BRegistry) (backendType : String) (factory : BackendFactory) : BRegistry :=
  (backendType, factory) :: r.filter (fun p => ¬ p.1 = backendType)

/-- Map lookup for the registry. -/
def lookupB : BRegistry → String → Option BackendFactory
  | [], _ => none
  | (t, f) :: rest, ty => if t = ty then some f else lookupB rest ty

/-- `Get`: unknown type is an error, otherwise the factory is invoked. -/
def getB (r : BRegistry) (cfg : BackendConfig) : Except String BackendVal :=
  match lookupB r cfg.type with
  | none => .error ("unknown backend type: " ++ cfg.type)
  | some f => f cfg

/-! ### Worktree backend: Create / Destroy (worktree.go, `Create` / `Destroy`)

`Create` validates the request, computes the worktree path
`<repo-parent>/choir-<task-id>`, fails fast if it exists, runs
`git worktree add -b <branch> <path> <base>`, then writes the `.choir-agent`
marker file; if the marker write fails it destroys the just-created worktree
before returning.  The git call and the marker write are the external steps
that can fail; their outcomes are explicit boolean parameters.  A failed
`git worktree add` creates nothing; `Destroy` (git worktree remove --force,
falling back to `os.RemoveAll`) always removes the directory in this model,
while the branch created by `worktree add` is not deleted by it. -/

/-- The fields of `config.CreateConfig` that `Create` reads. -/
structure CreateConfig where
  taskID : String
  repoPath : String
  branchPre : String
  baseBranch : String
  packages : List String
deriving DecidableEq, Repr

/-- Worktree/branch/marker state touched by `Create` and `Destroy`.  `markers`
records, per workspace directory, the task id stored in its marker file. -/
structure WtState where
  dirs : List String
  markers : List (String × String)
  branches : List String
deriving DecidableEq, Repr

/-- `filepath.Dir` for slash-separated paths (as used on the repository path). -/
def parentDir (p : String) : String :=
  String.intercalate "/" ((p.splitOn "/").dropLast)

/-- The deterministic workspace path `<repo-parent>/choir-<task-id>`. -/
def worktreePathFor (cfg : CreateConfig) : String :=
  parentDir cfg.repoPath ++ "/choir-" ++ cfg.taskID

/-- The new branch name: `<branch-prefix><task-id>`, defaulting the branch
name prefix to `agent/`. -/
def branchNameFor (cfg : CreateConfig) : String :=
  if cfg.branchPre = "" then "agent/" ++ cfg.taskID else cfg.branchPre ++ cfg.taskID

/-- Worktree `Destroy` at a path: the directory and its marker file are
removed (git worktree remove --force, falling back to forced recursive
deletion); the branch remains. -/
def destroyW (st : WtState) (path : String) : WtState :=
  { dirs := st.dirs.erase path
    markers := st.markers.filter (fun m => ¬ m.1 = path)
    branches := st.branches }

/-- Worktree `Create`: validation, existence check, `git worktree add`,
marker write with destroy-on-failure.  Returns the backendID (the worktree
path) or an error, together with the resulting state. -/
def createW (cfg : CreateConfig) (st : WtState) (gitAddOk markerWriteOk : Bool) :
    Except String String × WtState :=
  if cfg.taskID = "" then (.error "task ID is required", st)
  else if cfg.repoPath = "" then (.error "repository path is required", st)
  else if worktreePathFor cfg ∈ st.dirs then
    (.error ("worktree already exists: " ++ worktreePathFor cfg), st)
  else if gitAddOk then
    if markerWriteOk then
      (.ok (worktreePathFor cfg),
        { dirs := worktreePathFor cfg :: st.dirs
          markers := (worktreePathFor cfg, cfg.taskID) :: st.markers
          branches := branchNameFor cfg :: st.branches })
    else
      (.error "failed to create marker file",
        destroyW
          { dirs := worktreePathFor cfg :: st.dirs
            markers := st.markers
            branches := branchNameFor cfg :: st.branches }
          (worktreePathFor cfg))
  else
    (.error "failed to create worktree", st)

/-! ### Environment registry (internal/state/environment.go)

The database is modelled as the list of its rows.  Environment ids are lists
of characters so that prefix matching can be stated character-wise.  The
`id LIKE ? || '%'` query uses SQLite's `LIKE`, which compares ASCII letters
case-insensitively; the validated prefix is hexadecimal, so it contains no
wildcard characters. -/

/-- A row of the `environments` table. -/
structure Environment where
  id : List Char
  backend : String
  backendID : String
  repoPath : String
  remoteURL : String
  branchName : String
  baseBranch : String
  createdAt : Nat
  status : String
deriving DecidableEq, Repr

/-- The valid status strings (`ValidStatuses`). -/
def validStatuses : List String := ["provisioning", "ready", "failed", "removed"]

/-- `IsValidStatus`. -/
def isValidStatus (s : String) : Bool := validStatuses.contains s

/-- `isHexString`'s character test. -/
def isHexChar (c : Char) : Bool :=
  (('0' ≤ c) && (c ≤ '9')) || (('a' ≤ c) && (c ≤ 'f')) || (('A' ≤ c) && (c ≤ 'F'))

/-- `isHexString`: every character is hexadecimal. -/
def isHexString (s : List Char) : Bool := s.all isHexChar

/-- ASCII lowering, as SQLite's `LIKE` applies to the ASCII range. -/
def asciiLower (c : Char) : Char :=
  if ('A' ≤ c) && (c ≤ 'Z') then Char.ofNat (c.toNat + 32) else c

/-- The row filter of `WHERE id LIKE ? || '%'` for a wildcard-free pattern:
prefix comparison up to ASCII case. -/
def likeMatch (pfx id : List Char) : Bool :=
  (pfx.map asciiLower).isPrefixOf (id.map asciiLower)

/-- Result of `GetEnvironmentByPrefix`, as a tagged value: invalid-prefix
error, not-found error, unique match, or the structured ambiguous result
(`AmbiguousPrefixError`) carrying the prefix and every matching row. -/
inductive PfxLookupResult
  | invalid
  | notFound
  | found (e : Environment)
  | ambiguous (pfx : List Char) (ms : List Environment)
deriving DecidableEq, Repr

/-- `GetEnvironmentByPrefix`: reject empty or non-hexadecimal prefixes, then
range-query and dispatch on the number of matching rows. -/
def getEnvironmentByPfx (db : List Environment) (pfx : List Char) : PfxLookupResult :=
  if pfx = [] ∨ ¬ isHexString pfx then .invalid
  else
    match db.filter (fun e => likeMatch pfx e.id) with
    | [] => .notFound
    | [e] => .found e
    | es => .ambiguous pfx es

/-- Errors surfaced by the row-affecting registry operations. -/
inductive DbErr
  | notFound
  | invalidStatus (s : String)
deriving DecidableEq, Repr

/-- `DeleteEnvironment`: `DELETE FROM environments WHERE id = ?`; zero rows
affected is surfaced as not-found. -/
def deleteEnvironment (db : List Environment) (id : List Char) :
    List Environment × Option DbErr :=
  if db.countP (fun e => e.id = id) = 0 then (db, some .notFound)
  else (db.filter (fun e => ¬ e.id = id), none)

/-- The effect of the `UPDATE` statement on a matching row: every column but
`id` and `created_at` is set from the argument. -/
def applyUpdate (old arg : Environment) : Environment :=
  { arg with id := old.id, createdAt := old.createdAt }

/-- `UpdateEnvironment`: status validation, then
`UPDATE environments SET ... WHERE id = ?`; zero rows affected is not-found. -/
def updateEnvironment (db : List Environment) (env : Environment) :
    List Environment × Option DbErr :=
  if ¬ isValidStatus env.status then (db, some (.invalidStatus env.status))
  else if db.countP (fun e => e.id = env.id) = 0 then (db, some .notFound)
  else (db.map (fun e => if e.id = env.id then applyUpdate e env else e), none)

/-! ### Setup runner: environment materialization (setup.go, `writeEnvironment`)

The artifact is modelled as its character stream; variable names and values
are lists of characters.  Sourcing the artifact is modelled by a POSIX-shell
reader: comment and blank lines are skipped, an `export NAME=VALUE` line binds
a variable, the value word ends at an unquoted newline, single quotes quote
literally, and a backslash outside quotes escapes the next character. -/

/-- The single-quote character. -/
def squote : Char := Char.ofNat 39

/-- The backslash character. -/
def bslash : Char := Char.ofNat 92

/-- The newline character. -/
def nlChar : Char := Char.ofNat 10

/-- The comment character of the artifact header. -/
def hashChar : Char := Char.ofNat 35

/-- The equals sign between a variable name and its value. -/
def eqChar : Char := Char.ofNat 61

/-- The value escaping `strings.ReplaceAll(value, "'", "'\\''")`. -/
def escapeValue : List Char → List Char
  | [] => []
  | c :: cs =>
    if c = squote then squote :: bslash :: squote :: squote :: escapeValue cs
    else c :: escapeValue cs

/-- One `export KEY='VALUE'` line of the artifact. -/
def exportEntry (k v : List Char) : List Char :=
  "export ".toList ++ (k ++ (eqChar :: squote :: (escapeValue v ++ (squote :: [nlChar]))))

/-- The artifact header: two comment lines and a blank line. -/
def envHeader : List Char :=
  (hashChar :: " Choir environment variables".toList) ++
    (nlChar :: ((hashChar :: " This file is auto-generated. Do not edit manually.".toList) ++
      (nlChar :: [nlChar])))

/-- The export lines for an ordered list of bindings. -/
def entriesText (ps : List (List Char × List Char)) : List Char :=
  (ps.map (fun p => exportEntry p.1 p.2)).flatten

/-- `writeEnvironment`: no artifact at all for an empty variable map;
otherwise the header followed by one export line per variable, keys sorted. -/
def writeEnvironment (env : List (List Char × List Char)) : Option (List Char) :=
  if env = [] then none
  else
    some (envHeader ++ entriesText
      ((List.insertionSort (fun a b => a ≤ b) (env.map Prod.fst)).map
        (fun k => (k, (env.lookup k).getD []))))

/-- The reader state for a value word: outside quotes, inside single quotes,
or just after an unquoted backslash. -/
inductive ValMode
  | plain
  | quoted
  | escaped
deriving DecidableEq, Repr

/-- Reading a value word.  Outside quotes the word ends at an unquoted
newline, a single quote enters quoted mode and a backslash escapes the next
character (a backslash-newline is a line continuation); inside single quotes
every character up to the closing quote is literal and an unterminated quote
is an error. -/
def parseValM : ValMode → List Char → Option (List Char × List Char)
  | .plain, [] => some ([], [])
  | .plain, c :: cs =>
    if c = nlChar then some ([], cs)
    else if c = squote then parseValM .quoted cs
    else if c = bslash then parseValM .escaped cs
    else (parseValM .plain cs).map (fun r => (c :: r.1, r.2))
  | .quoted, [] => none
  | .quoted, c :: cs =>
    if c = squote then parseValM .plain cs
    else (parseValM .quoted cs).map (fun r => (c :: r.1, r.2))
  | .escaped, [] => none
  | .escaped, d :: ds =>
    if d = nlChar then parseValM .plain ds
    else (parseValM .plain ds).map (fun r => (d :: r.1, r.2))

/-- Reading a value word from outside quotes. -/
def parseVal (s : List Char) : Option (List Char × List Char) := parseValM .plain s

/-- The variable name of an export line: the characters before `=`. -/
def parseKey : List Char → Option (List Char × List Char)
  | [] => none
  | c :: cs =>
    if c = eqChar then some ([], cs)
    else (parseKey cs).map (fun r => (c :: r.1, r.2))

/-- Skip past the next newline (the remainder of a comment line). -/
def dropLine : List Char → List Char
  | [] => []
  | c :: cs => if c = nlChar then cs else dropLine cs

/-- Line dispatch of sourcing the artifact: blank lines and `#` comments are
skipped, `export NAME=VALUE` lines bind a variable; the fuel bounds the number
of lines. -/
def sourceLines : Nat → List Char → Option (List (List Char × List Char))
  | 0, _ => none
  | _ + 1, [] => some []
  | fuel + 1, c :: cs =>
    if c = nlChar then sourceLines fuel cs
    else if c = hashChar then sourceLines fuel (dropLine cs)
    else if ("export ".toList).isPrefixOf (c :: cs) then
      match parseKey (List.drop 7 (c :: cs)) with
      | none => none
      | some (k, rest) =>
        match parseVal rest with
        | none => none
        | some (v, rest2) => (sourceLines fuel rest2).map (fun out => (k, v) :: out)
    else none

/-- Source a whole artifact: the variables a shell would have after reading
the character stream. -/
def sourceFile (s : List Char) : Option (List (List Char × List Char)) :=
  sourceLines (s.length + 1) s

/-- Shell-identifier characters, the alphabet of environment-variable names. -/
def isIdentChar (c : Char) : Bool := c.isAlphanum || c = '_'

/-! ### Setup runner: commands (setup.go, `runCommands`)

Setup commands run strictly in order in the workspace directory, each
sourcing the environment artifact first when present.  The outcome of running
the command at 0-based index `i` is an explicit parameter: `none` is a zero
exit, `some e` carries the underlying failure.  The loop stops at the first
failure and wraps it in an error naming the 1-based index. -/

/-- The error built by `fmt.Errorf("command %d failed: %s: %w", i+1, command, err)`:
the 1-based index, the command text, and the wrapped underlying error. -/
structure CmdFailure where
  index : Nat
  command : String
  underlying : String
deriving DecidableEq, Repr

/-- The command loop from absolute position `i`: returns the 0-based indices
of the commands that were run and the error, if any. -/
def runCommandsFrom (outcome : Nat → Option String) : List String → Nat →
    List Nat × Option CmdFailure
  | [], _ => ([], none)
  | c :: rest, i =>
    match outcome i with
    | some e => ([i], some ⟨i + 1, c, e⟩)
    | none =>
      let r := runCommandsFrom outcome rest (i + 1)
      (i :: r.1, r.2)

/-- `runCommands`: nothing to do for an empty list, otherwise the loop. -/
def runCommands (outcome : Nat → Option String) (cmds : List String) :
    List Nat × Option CmdFailure :=
  if cmds = [] then ([], none) else runCommandsFrom outcome cmds 0

/-! ### Setup runner: file mounts (setup.go, `handleFile`)

The host filesystem is modelled as an association list from absolute paths
(lists of components) to entries — a file with contents, a directory, or a
symbolic link.  `handleFile` stats the source, creates the target's parent
directories, removes any pre-existing entry at the target, then either
symlinks (read-only mounts) or copies recursively (writable mounts).
`copyFile`/`copyDir` recreate the source subtree rooted at the target; for
symlink-free source subtrees (the only ones the copy theorem speaks about,
since Go's `copyFile` follows links) this is a structural copy of every
entry. -/

/-- A path, as its list of components. -/
abbrev FPath := List String

/-- A filesystem entry. -/
inductive FsEntry
  | file (content : String)
  | dir
  | symlink (target : FPath)
deriving DecidableEq, Repr

/-- A filesystem: paths associated to entries. -/
abbrev Fs := List (FPath × FsEntry)

/-- `os.Lstat`: the entry at exactly this path. -/
def lookupFs : Fs → FPath → Option FsEntry
  | [], _ => none
  | en :: rest, p => if en.1 = p then some en.2 else lookupFs rest p

/-- Remove the entry keyed exactly at `p`. -/
def eraseKeyFs (fs : Fs) (p : FPath) : Fs := fs.filter (fun en => ¬ en.1 = p)

/-- Write an entry at `p` (creating or overwriting). -/
def setFs (fs : Fs) (p : FPath) (e : FsEntry) : Fs := (p, e) :: eraseKeyFs fs p

/-- `os.RemoveAll`: drop the entry at `p` and everything below it. -/
def removeAllFs (fs : Fs) (p : FPath) : Fs := fs.filter (fun en => ¬ p <+: en.1)

/-- The non-empty prefixes of a path, shortest first. -/
def prefixesOf (p : FPath) : List FPath :=
  (List.range p.length).map (fun i => p.take (i + 1))

/-- Create each directory of a prefix chain in turn; an existing
non-directory entry on the way is an error, as in `os.MkdirAll`. -/
def mkdirs : Fs → List FPath → Option Fs
  | fs, [] => some fs
  | fs, q :: qs =>
    match lookupFs fs q with
    | some .dir => mkdirs fs qs
    | some _ => none
    | none => mkdirs (setFs fs q .dir) qs

/-- `os.MkdirAll`. -/
def mkdirAll (fs : Fs) (p : FPath) : Option Fs := mkdirs fs (prefixesOf p)

/-- The subtree of `fs` below `src`: each entry keyed by its path relative
to `src`. -/
def entriesUnder (fs : Fs) (src : FPath) : List (FPath × FsEntry) :=
  fs.filterMap (fun en =>
    if src <+: en.1 then some (en.1.drop src.length, en.2) else none)

/-- `copyFile`/`copyDir`: recreate the source subtree rooted at `dst`. -/
def copyTree (fs : Fs) (src dst : FPath) : Fs :=
  ((entriesUnder fs src).map (fun en => (dst ++ en.1, en.2))) ++ fs

/-- `config.FileMount`: source path, target path, read-only flag. -/
structure FileMount where
  source : FPath
  target : FPath
  readOnly : Bool
deriving DecidableEq, Repr

/-- `handleFile`: verify the source exists, create the target's parent
directories, remove any pre-existing entry at the target, then symlink the
source (read-only mounts) or copy it recursively (writable mounts). -/
def handleFile (fs : Fs) (fm : FileMount) : Option Fs :=
  match lookupFs fs fm.source with
  | none => none
  | some _ =>
    match mkdirAll fs fm.target.dropLast with
    | none => none
    | some fs1 =>
      let fs2 := if (lookupFs fs1 fm.target).isSome then removeAllFs fs1 fm.target else fs1
      if fm.readOnly then some (setFs fs2 fm.target (.symlink fm.source))
      else some (copyTree fs2 fm.source fm.target)

/-- A concrete stored environment with id `"aa"`, used to evaluate the model. -/
def envAA : Environment :=
  { id := ['a', 'a'], backend := "worktree", backendID := "", repoPath := "/r",
    remoteURL := "", branchName := "env/aa", baseBranch := "main", createdAt := 0,
    status := "ready" }

/-- A concrete stored environment with id `"ab"`, used to evaluate the model. -/
def envAB : Environment :=
  { id := ['a', 'b'], backend := "worktree", backendID := "", repoPath := "/r",
    remoteURL := "", branchName := "env/ab", baseBranch := "main", createdAt := 0,
    status := "ready" }

/-- A concrete stored environment with id `"ac"`, used to evaluate the model. -/
def envAC : Environment :=
  { id := ['a', 'c'], backend := "worktree", backendID := "", repoPath := "/r",
    remoteURL := "", branchName := "env/ac", baseBranch := "main", createdAt := 1,
    status := "ready" }

/-- A concrete creation request, used to evaluate the model. -/
def sampleCfg : CreateConfig :=
  { taskID := "abc123", repoPath := "/home/u/repo", branchPre := "", baseBranch := "HEAD",
    packages := [] }

/-- The empty worktree state, used to evaluate the model. -/
def emptyWtState : WtState := { dirs := [], markers := [], branches := [] }

end Choir

namespace Choir

/-- C6: worktree `Status` reports `NotFound` when the path does not exist,
`Error` when the path exists but the marker artifact is missing (in particular
for a directory not owned by choir, which therefore never reports `Running`),
and `Running` otherwise; the returned Go error is `nil` in every case. -/
theorem statusW_spec (obs : WorkspaceObs) (hfs : obs.hasMarker = true → obs.kind = .dir) :
    (obs.kind = .absent → (statusW obs).1.state = .notFound) ∧
    (obs.kind ≠ .absent → obs.hasMarker = false → (statusW obs).1.state = .error) ∧
    (obs.kind ≠ .absent → obs.hasMarker = true → (statusW obs).1.state = .running) ∧
    (statusW obs).2 = none := by
  refine ⟨?_, ?_, ?_, ?_⟩
  · intro h
    simp [statusW, h]
  · intro _ hm
    cases hk : obs.kind <;> simp_all [statusW]
  · intro _ hm
    have := hfs hm
    simp [statusW, this, hm]
  · rcases obs with ⟨kind, marker⟩
    cases kind <;> cases marker <;> simp [statusW]

/-- C6 witness: a marker-carrying directory reports `Running`, evaluated at a
concrete observation. -/
theorem statusW_spec_witness :
    (statusW ⟨.dir, true⟩).1.state = .running ∧ (statusW ⟨.absent, false⟩).1.state = .notFound := by
  refine ⟨(statusW_spec ⟨.dir, true⟩ (by intro _; rfl)).2.2.1 (by decide) rfl, ?_⟩
  exact (statusW_spec ⟨.absent, false⟩ (by intro h; cases h)).1 rfl

/-- C7 counterexample: the claim says `Start` and `Stop` never return an error,
but on a non-existent workspace path both return a "worktree not found" error. -/
theorem startW_errors_on_missing_path :
    startW false = some "worktree not found" ∧ stopW false = some "worktree not found" := by
  exact ⟨rfl, rfl⟩

/-- C7 amended: `Start` and `Stop` perform no substrate action; they return no
error whenever the workspace path exists, and return a "worktree not found"
error when it does not. -/
theorem startW_stopW_noop (pathExists : Bool) :
    (pathExists = true → startW pathExists = none ∧ stopW pathExists = none) ∧
    (pathExists = false →
      startW pathExists = some "worktree not found" ∧
      stopW pathExists = some "worktree not found") := by
  cases pathExists <;> simp [startW, stopW]

/-- C7 witness: the amended statement evaluated at an existing path. -/
theorem startW_stopW_noop_witness : startW true = none ∧ stopW true = none :=
  (startW_stopW_noop true).1 rfl

/-- C10: when the workspace path exists and the command runs to an exit code
(zero or not), `Exec` returns that code with a `nil` error; whenever `Exec`
returns a non-`nil` error the exit code is `-1`, and that happens only when the
path does not exist or the command could not be run at all. -/
theorem execW_spec (pathExists : Bool) (outcome : RunOutcome) :
    (pathExists = true → ∀ out code, outcome = .exited out code →
      execW pathExists outcome = (out, code, none)) ∧
    ((execW pathExists outcome).2.2 ≠ none →
      (execW pathExists outcome).2.1 = -1 ∧
      (pathExists = false ∨ ∃ out msg, outcome = .startFailure out msg)) := by
  constructor
  · intro hp out code ho
    simp [execW, hp, ho]
  · intro herr
    cases pathExists with
    | false => simp [execW]
    | true =>
      cases outcome with
      | exited out code => simp [execW] at herr
      | startFailure out msg => simp [execW]

/-- C10 witness: a command that exits with code 7 yields a `nil` error, at a
concrete input. -/
theorem execW_spec_witness : execW true (.exited "boom" 7) = ("boom", 7, none) :=
  (execW_spec true (.exited "boom" 7)).1 rfl "boom" 7 rfl

/-- C8: the claim (and the package's own test `TestRegisterDuplicatePanics`)
require a duplicate `Register` for the same type to fail fast; the code's
`Register` is a bare map assignment that silently replaces the earlier factory
and returns normally, as this evaluation at the test's input shows. -/
theorem registerB_duplicate_silently_replaces :
    lookupB
      (registerB (registerB [] "duplicate" (fun _ => .ok 1)) "duplicate" (fun _ => .ok 2))
      "duplicate" = some (fun _ => .ok 2) ∧
    getB (registerB (registerB [] "duplicate" (fun _ => .ok 1)) "duplicate" (fun _ => .ok 2))
      { name := "", type := "duplicate" } = .ok 2 ∧
    getB [] { name := "", type := "duplicate" } = .error "unknown backend type: duplicate" := by
  refine ⟨?_, ?_, ?_⟩ <;> rfl

/-- C2: worktree `Create` is atomic from the caller's view: either it returns
the workspace path and the full triple is in place (workspace directory, new
branch, marker file recording the task id), or it returns an error and leaves
no new workspace directory (and no new marker) behind — in particular, when
the marker write fails the just-created worktree is destroyed before the error
is returned.  The hypothesis states the filesystem fact that marker files live
inside workspace directories. -/
theorem createW_atomic (cfg : CreateConfig) (st : WtState) (gitAddOk markerWriteOk : Bool)
    (hwf : ∀ m ∈ st.markers, m.1 ∈ st.dirs) :
    ((createW cfg st gitAddOk markerWriteOk).1 = .ok (worktreePathFor cfg) ∧
      worktreePathFor cfg ∈ (createW cfg st gitAddOk markerWriteOk).2.dirs ∧
      (worktreePathFor cfg, cfg.taskID) ∈ (createW cfg st gitAddOk markerWriteOk).2.markers ∧
      branchNameFor cfg ∈ (createW cfg st gitAddOk markerWriteOk).2.branches) ∨
    ((∃ m, (createW cfg st gitAddOk markerWriteOk).1 = .error m) ∧
      (createW cfg st gitAddOk markerWriteOk).2.dirs = st.dirs ∧
      (createW cfg st gitAddOk markerWriteOk).2.markers = st.markers) := by
  unfold createW
  split
  · exact Or.inr ⟨⟨_, rfl⟩, rfl, rfl⟩
  · split
    · exact Or.inr ⟨⟨_, rfl⟩, rfl, rfl⟩
    · split
      · exact Or.inr ⟨⟨_, rfl⟩, rfl, rfl⟩
      · rename_i hmem
        split
        · split
          · exact Or.inl ⟨rfl, by simp, by simp, by simp⟩
          · refine Or.inr ⟨⟨_, rfl⟩, ?_, ?_⟩
            · simp [destroyW]
            · simp only [destroyW]
              refine List.filter_eq_self.mpr fun m hm => ?_
              have hne : m.1 ≠ worktreePathFor cfg := fun h => hmem (h ▸ hwf m hm)
              simpa using hne
        · exact Or.inr ⟨⟨_, rfl⟩, rfl, rfl⟩

/-- C2 witness: the atomicity theorem applied at a concrete request and the
empty initial state. -/
theorem createW_atomic_witness :
    ((createW sampleCfg emptyWtState true true).1 = .ok (worktreePathFor sampleCfg) ∧
      worktreePathFor sampleCfg ∈ (createW sampleCfg emptyWtState true true).2.dirs ∧
      (worktreePathFor sampleCfg, sampleCfg.taskID) ∈
        (createW sampleCfg emptyWtState true true).2.markers ∧
      branchNameFor sampleCfg ∈ (createW sampleCfg emptyWtState true true).2.branches) ∨
    ((∃ m, (createW sampleCfg emptyWtState true true).1 = .error m) ∧
      (createW sampleCfg emptyWtState true true).2.dirs = emptyWtState.dirs ∧
      (createW sampleCfg emptyWtState true true).2.markers = emptyWtState.markers) :=
  createW_atomic sampleCfg emptyWtState true true (by intro m hm; cases hm)

/-- C1 counterexample: the prefix `"AA"` is non-empty and hexadecimal, and
zero stored ids start with it (the only stored id is `"aa"`), so the claim
requires a not-found error; the code's `LIKE`-based range query matches ASCII
case-insensitively and returns the environment. -/
theorem getEnvironmentByPfx_counterexample :
    isHexString ['A', 'A'] = true ∧
    List.filter (fun e => (['A', 'A'] : List Char).isPrefixOf e.id) [envAA] = [] ∧
    getEnvironmentByPfx [envAA] ['A', 'A'] = .found envAA := by
  refine ⟨by decide, by decide, by decide⟩

/-- C1 amended: `GetEnvironmentByPrefix` rejects an empty or non-hexadecimal
prefix; otherwise, with "starts with" read up to ASCII case (the semantics of
the SQLite `LIKE` range query), zero matching rows yield not-found, exactly
one yields that environment, and two or more yield the structured ambiguous
result carrying every matching environment. -/
theorem getEnvironmentByPfx_spec (db : List Environment) (pfx : List Char) :
    ((pfx = [] ∨ isHexString pfx = false) → getEnvironmentByPfx db pfx = .invalid) ∧
    (pfx ≠ [] → isHexString pfx = true →
      (db.filter (fun e => likeMatch pfx e.id) = [] →
        getEnvironmentByPfx db pfx = .notFound) ∧
      (∀ e, db.filter (fun e => likeMatch pfx e.id) = [e] →
        getEnvironmentByPfx db pfx = .found e) ∧
      (2 ≤ (db.filter (fun e => likeMatch pfx e.id)).length →
        getEnvironmentByPfx db pfx =
          .ambiguous pfx (db.filter (fun e => likeMatch pfx e.id)))) := by
  constructor
  · intro h
    rcases h with h | h <;> simp [getEnvironmentByPfx, h]
  · intro h1 h2
    have hcond : ¬ (pfx = [] ∨ ¬ isHexString pfx) := by simp [h1, h2]
    refine ⟨?_, ?_, ?_⟩
    · intro hf
      unfold getEnvironmentByPfx
      rw [if_neg hcond, hf]
    · intro e hf
      unfold getEnvironmentByPfx
      rw [if_neg hcond, hf]
    · intro hlen
      unfold getEnvironmentByPfx
      rw [if_neg hcond]
      cases hm : db.filter (fun e => likeMatch pfx e.id) with
      | nil => rw [hm] at hlen; simp at hlen
      | cons a tl =>
        cases tl with
        | nil => rw [hm] at hlen; simp at hlen
        | cons b rest => rfl

/-- C1 witness (for the amended statement): two stored ids share the queried
prefix, and the result is the ambiguous value carrying both environments. -/
theorem getEnvironmentByPfx_spec_witness :
    getEnvironmentByPfx [envAB, envAC] ['a'] = .ambiguous ['a'] [envAB, envAC] := by
  have h := ((getEnvironmentByPfx_spec [envAB, envAC] ['a']).2
    (by decide) (by decide)).2.2 (by decide)
  rw [show List.filter (fun e => likeMatch ['a'] e.id) [envAB, envAC] = [envAB, envAC]
    from by decide] at h
  exact h

/-- With unique ids, the rows matching a stored row's id are exactly that row. -/
theorem filter_id_singleton {db : List Environment} {e : Environment}
    (hnd : (db.map (fun x => x.id)).Nodup) (he : e ∈ db) :
    db.filter (fun x => x.id = e.id) = [e] := by
  induction db with
  | nil => cases he
  | cons x rest ih =>
    rw [List.map_cons, List.nodup_cons] at hnd
    by_cases hx : x.id = e.id
    · have hxe : x = e := by
        rcases List.mem_cons.mp he with h | h
        · exact h.symm
        · exact absurd (hx ▸ List.mem_map_of_mem (fun y => y.id) h) hnd.1
      rw [List.filter_cons_of_pos (by simpa using hx)]
      rw [List.filter_eq_nil_iff.mpr, hxe]
      intro y hy
      simp only [decide_eq_true_eq]
      intro hid
      exact hnd.1 (by rw [hx]; exact hid ▸ List.mem_map_of_mem (fun z => z.id) hy)
    · have hemem : e ∈ rest := by
        rcases List.mem_cons.mp he with h | h
        · exact absurd (by rw [h]) hx
        · exact h
      rw [List.filter_cons_of_neg (by simpa using hx)]
      exact ih hnd.2 hemem

/-- Rows not matching the updated id pass through `UpdateEnvironment` intact. -/
theorem update_filter_others (env : Environment) (db : List Environment) :
    (db.map (fun x => if x.id = env.id then applyUpdate x env else x)).filter
      (fun x => ¬ x.id = env.id) = db.filter (fun x => ¬ x.id = env.id) := by
  induction db with
  | nil => rfl
  | cons y rest ih =>
    by_cases hy : y.id = env.id
    · rw [List.map_cons, if_pos hy,
        List.filter_cons_of_neg (by simp [applyUpdate, hy]),
        List.filter_cons_of_neg (by simp [hy])]
      exact ih
    · rw [List.map_cons, if_neg hy,
        List.filter_cons_of_pos (by simpa using hy),
        List.filter_cons_of_pos (by simpa using hy)]
      rw [ih]

/-- Rows matching the updated id are exactly the updated originals. -/
theorem update_filter_same (env : Environment) (db : List Environment) :
    (db.map (fun x => if x.id = env.id then applyUpdate x env else x)).filter
      (fun x => x.id = env.id) =
    (db.filter (fun x => x.id = env.id)).map
      (fun x => if x.id = env.id then applyUpdate x env else x) := by
  induction db with
  | nil => rfl
  | cons y rest ih =>
    by_cases hy : y.id = env.id
    · rw [List.map_cons, if_pos hy,
        List.filter_cons_of_pos (by simp [applyUpdate, hy]),
        List.filter_cons_of_pos (by simpa using hy),
        List.map_cons, if_pos hy]
      rw [ih]
    · rw [List.map_cons, if_neg hy,
        List.filter_cons_of_neg (by simpa using hy),
        List.filter_cons_of_neg (by simpa using hy)]
      exact ih

/-- C9: with ids unique (the `id` column is the primary key),
`DeleteEnvironment` and `UpdateEnvironment` affect exactly the one row
carrying the requested id when it exists, and surface zero affected rows as a
not-found error; in particular deleting an already-deleted id returns
not-found and never succeeds twice. -/
theorem deleteEnvironment_updateEnvironment_spec
    (db : List Environment) (e env : Environment)
    (hnd : (db.map (fun x => x.id)).Nodup) :
    (e ∈ db →
      db.filter (fun x => x.id = e.id) = [e] ∧
      deleteEnvironment db e.id = (db.filter (fun x => ¬ x.id = e.id), none) ∧
      deleteEnvironment (db.filter (fun x => ¬ x.id = e.id)) e.id =
        (db.filter (fun x => ¬ x.id = e.id), some .notFound)) ∧
    ((∀ x ∈ db, ¬ x.id = e.id) → deleteEnvironment db e.id = (db, some .notFound)) ∧
    (isValidStatus env.status = true → e ∈ db → e.id = env.id →
      (updateEnvironment db env).2 = none ∧
      (updateEnvironment db env).1.filter (fun x => ¬ x.id = env.id) =
        db.filter (fun x => ¬ x.id = env.id) ∧
      (updateEnvironment db env).1.filter (fun x => x.id = env.id) = [applyUpdate e env]) ∧
    (isValidStatus env.status = true → (∀ x ∈ db, ¬ x.id = env.id) →
      updateEnvironment db env = (db, some .notFound)) := by
  have hcount : ∀ (id : List Char), (∃ x ∈ db, x.id = id) →
      ¬ db.countP (fun x => x.id = id) = 0 := by
    intro id ⟨x, hx, hxid⟩ h0
    have := List.countP_eq_zero.mp h0 x hx
    simp [hxid] at this
  refine ⟨?_, ?_, ?_, ?_⟩
  · intro he
    have hsing := filter_id_singleton hnd he
    refine ⟨hsing, ?_, ?_⟩
    · unfold deleteEnvironment
      rw [if_neg (hcount e.id ⟨e, he, rfl⟩)]
    · unfold deleteEnvironment
      rw [if_pos]
      rw [List.countP_eq_zero]
      intro x hx
      simpa using (List.mem_filter.mp hx).2
  · intro hnone
    unfold deleteEnvironment
    rw [if_pos (List.countP_eq_zero.mpr (by simpa using hnone))]
  · intro hval he hid
    have hne0 := hcount env.id ⟨e, he, hid⟩
    have hupd : updateEnvironment db env =
        (db.map (fun x => if x.id = env.id then applyUpdate x env else x), none) := by
      unfold updateEnvironment
      rw [if_neg (by simp [hval]), if_neg hne0]
    rw [hupd]
    refine ⟨rfl, update_filter_others env db, ?_⟩
    have hse : db.filter (fun x => x.id = env.id) = [e] := by
      have := filter_id_singleton hnd he
      rw [hid] at this
      exact this
    rw [update_filter_same env db, hse, List.map_cons, List.map_nil, if_pos hid]
  · intro hval hnone
    unfold updateEnvironment
    rw [if_neg (by simp [hval]),
      if_pos (List.countP_eq_zero.mpr (by simpa using hnone))]

/-- C9 witness: deleting the only row succeeds and affects that row; deleting
it again returns not-found; updating it with a valid status succeeds. -/
theorem deleteEnvironment_updateEnvironment_spec_witness :
    deleteEnvironment [envAA] envAA.id = ([], none) ∧
    deleteEnvironment [] envAA.id = ([], some .notFound) ∧
    (updateEnvironment [envAA] envAB).2 = some .notFound ∧
    (updateEnvironment [envAA] { envAA with status := "failed" }).2 = none := by
  have h := deleteEnvironment_updateEnvironment_spec [envAA] envAA
    { envAA with status := "failed" } (by decide)
  have h1 := (h.1 (by decide)).2.1
  have h2 := (h.1 (by decide)).2.2
  have h3 := (h.2.2.1 (by decide) (by decide) (by decide)).1
  rw [show List.filter (fun x => ¬ x.id = envAA.id) [envAA] = [] from by decide] at h1 h2
  exact ⟨h1, h2, by decide, h3⟩

/-- The command loop at an arbitrary offset: if the command `m` positions in
is the first to fail, exactly the first `m + 1` commands run and the error
carries the absolute 1-based index and the underlying failure. -/
theorem runCommandsFrom_first_failure (outcome : Nat → Option String) :
    ∀ (cmds : List String) (i m : Nat) (e : String),
      (∀ j, j < m → outcome (i + j) = none) → outcome (i + m) = some e →
      m < cmds.length →
      runCommandsFrom outcome cmds i =
        (List.range' i (m + 1), some ⟨i + m + 1, cmds.getD m "", e⟩) := by
  intro cmds
  induction cmds with
  | nil =>
    intro i m e _ _ hlt
    simp at hlt
  | cons c rest ih =>
    intro i m e hbefore hfail hlt
    cases m with
    | zero =>
      rw [show i + 0 = i from rfl] at hfail
      simp [runCommandsFrom, hfail, List.range'_one]
    | succ n =>
      have h0 : outcome i = none := by
        have := hbefore 0 (Nat.succ_pos n)
        simpa using this
      have hrest := ih (i + 1) n e
        (fun j hj => by
          have := hbefore (j + 1) (Nat.succ_lt_succ hj)
          rw [show i + (j + 1) = i + 1 + j from by omega] at this
          exact this)
        (by rw [show i + 1 + n = i + (n + 1) from by omega]; exact hfail)
        (by simpa using Nat.lt_of_succ_lt_succ (Nat.succ_lt_succ (by simpa using hlt)))
      simp only [runCommandsFrom, h0, hrest, Prod.mk.injEq]
      refine ⟨?_, ?_⟩
      · simp [List.range'_succ]
      · simp only [Option.some.injEq, CmdFailure.mk.injEq]
        refine ⟨by omega, ?_, trivial⟩
        rw [List.getD_cons_succ]

/-- C4: if the setup command at 1-based index `k` is the first to exit
non-zero, exactly the commands at 0-based indices `0 .. k-1` run (none at
index `k+1` or later, none rolled back), and the returned error names `k`,
carries the failing command, and wraps the underlying failure. -/
theorem runCommands_first_failure (cmds : List String) (outcome : Nat → Option String)
    (k : Nat) (e : String) (hk1 : 1 ≤ k) (hk2 : k ≤ cmds.length)
    (hbefore : ∀ j, j < k - 1 → outcome j = none) (hfail : outcome (k - 1) = some e) :
    (runCommands outcome cmds).1 = List.range k ∧
    (runCommands outcome cmds).2 = some ⟨k, cmds.getD (k - 1) "", e⟩ := by
  obtain ⟨m, rfl⟩ : ∃ m, k = m + 1 := ⟨k - 1, (Nat.succ_pred_eq_of_pos hk1).symm⟩
  have hne : cmds ≠ [] := by
    intro h
    rw [h] at hk2
    simp at hk2
  have h := runCommandsFrom_first_failure outcome cmds 0 m e
    (fun j hj => by simpa using hbefore j (by simpa using hj))
    (by simpa using hfail)
    (by omega)
  unfold runCommands
  rw [if_neg hne]
  refine ⟨?_, ?_⟩
  · rw [h, List.range_eq_range']
  · rw [h]
    simp

/-- C4 witness: with three commands and the second failing, exactly the first
two run and the error names index 2, evaluated at a concrete input. -/
theorem runCommands_first_failure_witness :
    (runCommands (fun j => if j = 1 then some "exit status 1" else none)
      ["go mod download", "make setup", "make build"]).1 = [0, 1] ∧
    (runCommands (fun j => if j = 1 then some "exit status 1" else none)
      ["go mod download", "make setup", "make build"]).2 =
      some ⟨2, "make setup", "exit status 1"⟩ := by
  have h := runCommands_first_failure
    ["go mod download", "make setup", "make build"]
    (fun j => if j = 1 then some "exit status 1" else none) 2 "exit status 1"
    (by decide) (by decide)
    (fun j hj => by
      have : j = 0 := by omega
      subst this
      rfl)
    rfl
  exact ⟨by rw [h.1]; rfl, by rw [h.2]; rfl⟩

/-- Reading back an escaped value: the quoted-mode reader consumes the escaped
text up to the closing quote and newline and recovers the original value. -/
theorem parseValM_escape (v : List Char) : ∀ rest : List Char,
    parseValM .quoted (escapeValue v ++ (squote :: nlChar :: rest)) = some (v, rest) := by
  have hq : squote ≠ nlChar := by decide
  have hb1 : bslash ≠ nlChar := by decide
  have hb2 : bslash ≠ squote := by decide
  induction v with
  | nil =>
    intro rest
    rw [show escapeValue [] ++ (squote :: nlChar :: rest) = squote :: nlChar :: rest from rfl]
    rw [parseValM, if_pos rfl, parseValM, if_pos rfl]
  | cons c cs ih =>
    intro rest
    by_cases hc : c = squote
    · subst hc
      rw [show escapeValue (squote :: cs) ++ (squote :: nlChar :: rest) =
          squote :: bslash :: squote :: squote :: (escapeValue cs ++ (squote :: nlChar :: rest))
        from by rw [escapeValue, if_pos rfl]; simp [List.cons_append]]
      rw [parseValM, if_pos rfl]
      rw [parseValM, if_neg hb1, if_neg hb2, if_pos rfl]
      rw [parseValM, if_neg hq]
      rw [parseValM, if_neg hq, if_pos rfl]
      rw [ih rest]
      rfl
    · rw [show escapeValue (c :: cs) ++ (squote :: nlChar :: rest) =
          c :: (escapeValue cs ++ (squote :: nlChar :: rest)) from by
        rw [escapeValue, if_neg hc]; simp [List.cons_append]]
      rw [parseValM, if_neg hc, ih rest]
      rfl

/-- An identifier never contains the `=` separator. -/
theorem no_eq_of_ident {k : List Char} (hk : k.all isIdentChar = true) : eqChar ∉ k := by
  intro hm
  have h := List.all_eq_true.mp hk _ hm
  exact absurd h (by decide)

/-- Reading back a variable name: the characters before the `=`. -/
theorem parseKey_append {k : List Char} (hk : eqChar ∉ k) : ∀ rest : List Char,
    parseKey (k ++ (eqChar :: rest)) = some (k, rest) := by
  induction k with
  | nil => intro rest; simp [parseKey]
  | cons c cs ih =>
    intro rest
    have hc : c ≠ eqChar := fun h => hk (h ▸ List.mem_cons_self c cs)
    rw [List.cons_append, parseKey, if_neg hc, ih (fun h => hk (List.mem_cons_of_mem c h)) rest]
    rfl

/-- Skipping a comment line consumes exactly up to its newline. -/
theorem dropLine_append {t : List Char} (ht : nlChar ∉ t) : ∀ rest : List Char,
    dropLine (t ++ (nlChar :: rest)) = rest := by
  induction t with
  | nil => intro rest; simp [dropLine]
  | cons c cs ih =>
    intro rest
    have hc : c ≠ nlChar := fun h => ht (h ▸ List.mem_cons_self c cs)
    rw [List.cons_append, dropLine, if_neg hc, ih (fun h => ht (List.mem_cons_of_mem c h))]

/-- Sourcing skips the artifact header in three line steps. -/
theorem sourceLines_header (fuel : Nat) (rest : List Char) :
    sourceLines (fuel + 3) (envHeader ++ rest) = sourceLines fuel rest := by
  have h1 : nlChar ∉ " Choir environment variables".toList := by decide
  have h2 : nlChar ∉ " This file is auto-generated. Do not edit manually.".toList := by decide
  have hh : hashChar ≠ nlChar := by decide
  simp only [envHeader, List.cons_append, List.append_assoc, List.nil_append]
  rw [show fuel + 3 = (fuel + 2) + 1 from rfl, sourceLines]
  rw [if_neg hh, if_pos rfl, dropLine_append h1]
  rw [show fuel + 2 = (fuel + 1) + 1 from rfl, sourceLines]
  rw [if_neg hh, if_pos rfl, dropLine_append h2]
  rw [sourceLines, if_pos rfl]

/-- Sourcing one export line binds its variable and moves to the next line. -/
theorem sourceLines_export_step (k v : List Char) (hk : k.all isIdentChar = true)
    (fuel : Nat) (rest : List Char) :
    sourceLines (fuel + 1) (exportEntry k v ++ rest) =
      (sourceLines fuel rest).map (fun out => (k, v) :: out) := by
  have hent : exportEntry k v ++ rest =
      'e' :: ("xport ".toList ++ (k ++ (eqChar :: squote ::
        (escapeValue v ++ (squote :: nlChar :: rest))))) := by
    simp [exportEntry, List.append_assoc]
  have hpre : (("export ".toList).isPrefixOf (exportEntry k v ++ rest)) = true := by
    rw [List.isPrefixOf_iff_prefix]
    rw [show exportEntry k v ++ rest = "export ".toList ++ ((k ++ (eqChar :: squote ::
      (escapeValue v ++ (squote :: [nlChar])))) ++ rest) from by
        simp [exportEntry, List.append_assoc]]
    exact List.prefix_append _ _
  have hdrop : List.drop 7 (exportEntry k v ++ rest) =
      k ++ (eqChar :: squote :: (escapeValue v ++ (squote :: nlChar :: rest))) := by
    rw [show exportEntry k v ++ rest = "export ".toList ++ ((k ++ (eqChar :: squote ::
      (escapeValue v ++ (squote :: [nlChar])))) ++ rest) from by
        simp [exportEntry, List.append_assoc]]
    rw [show (7 : Nat) = ("export ".toList).length from rfl, List.drop_left]
    simp [List.append_assoc]
  have he1 : ('e' : Char) ≠ nlChar := by decide
  have he2 : ('e' : Char) ≠ hashChar := by decide
  conv_lhs => rw [hent]
  rw [sourceLines, if_neg he1, if_neg he2]
  rw [show ('e' :: ("xport ".toList ++ (k ++ (eqChar :: squote ::
      (escapeValue v ++ (squote :: nlChar :: rest)))))) = exportEntry k v ++ rest from
    hent.symm]
  rw [if_pos hpre, hdrop, parseKey_append (no_eq_of_ident hk)]
  have hval : parseVal (squote :: (escapeValue v ++ (squote :: nlChar :: rest))) =
      some (v, rest) := by
    have hq : squote ≠ nlChar := by decide
    rw [parseVal, parseValM, if_neg hq, if_pos rfl, parseValM_escape]
  dsimp only
  rw [hval]

/-- Sourcing a block of export lines returns exactly those bindings. -/
theorem sourceLines_entries (ps : List (List Char × List Char))
    (hks : ∀ p ∈ ps, p.1.all isIdentChar = true) :
    ∀ fuel, ps.length < fuel → sourceLines fuel (entriesText ps) = some ps := by
  induction ps with
  | nil =>
    intro fuel hf
    cases fuel with
    | zero => omega
    | succ f => simp [entriesText, sourceLines]
  | cons p tl ih =>
    intro fuel hf
    cases fuel with
    | zero => omega
    | succ f =>
      rw [show entriesText (p :: tl) = exportEntry p.1 p.2 ++ entriesText tl from by
        simp [entriesText]]
      rw [sourceLines_export_step p.1 p.2 (hks p (List.mem_cons_self p tl)) f]
      rw [ih (fun q hq => hks q (List.mem_cons_of_mem p hq)) f (by simpa using hf)]
      rfl

/-- Each export line is non-empty, so the text is at least as long as the
number of entries. -/
theorem entriesText_length (ps : List (List Char × List Char)) :
    ps.length ≤ (entriesText ps).length := by
  induction ps with
  | nil => simp [entriesText]
  | cons p tl ih =>
    rw [show entriesText (p :: tl) = exportEntry p.1 p.2 ++ entriesText tl from by
      simp [entriesText]]
    rw [List.length_cons, List.length_append]
    have : 1 ≤ (exportEntry p.1 p.2).length := by
      simp [exportEntry]
    omega

/-- With unique names, re-reading each name's value reconstructs the map. -/
theorem lookup_reconstruct : ∀ (env : List (List Char × List Char)),
    (env.map Prod.fst).Nodup →
    (env.map Prod.fst).map (fun k => (k, (env.lookup k).getD [])) = env := by
  intro env
  induction env with
  | nil => intro _; rfl
  | cons p tl ih =>
    intro hnd
    rw [List.map_cons, List.nodup_cons] at hnd
    rw [List.map_cons, List.map_cons]
    refine congrArg₂ _ ?_ ?_
    · show (p.1, (List.lookup p.1 (p :: tl)).getD []) = p
      rw [show List.lookup p.1 (p :: tl) = some p.2 from by
        cases p with
        | mk k v => simp [List.lookup]]
      rfl
    · rw [List.map_congr_left (g := fun k => (k, (tl.lookup k).getD []))]
      · exact ih hnd.2
      · intro k hk
        have hne : ¬ (k == p.1) = true := by
          simp only [beq_iff_eq]
          intro h
          exact hnd.1 (h ▸ hk)
        cases p with
        | mk k0 v0 =>
          simp only [List.lookup]
          rw [show (k == k0) = false from by simpa using hne]

/-- C3: `writeEnvironment` writes no artifact at all for an empty variable
map; otherwise it writes one `export KEY='VALUE'` line per variable in sorted
key order, escaping every single quote in values, and sourcing the artifact
yields exactly the original variables with their original values. -/
theorem writeEnvironment_roundtrip (env : List (List Char × List Char))
    (hnd : (env.map Prod.fst).Nodup)
    (hkeys : ∀ k ∈ env.map Prod.fst, k.all isIdentChar = true) :
    (env = [] → writeEnvironment env = none) ∧
    (env ≠ [] → ∃ content, writeEnvironment env = some content ∧
      ∃ out, sourceFile content = some out ∧
        out.Perm env ∧ (out.map Prod.fst).Sorted (· ≤ ·)) := by
  constructor
  · intro h
    simp [writeEnvironment, h]
  · intro hne
    have hw : writeEnvironment env = some (envHeader ++ entriesText
        ((List.insertionSort (fun a b => a ≤ b) (env.map Prod.fst)).map
          (fun k => (k, (env.lookup k).getD [])))) := by
      rw [writeEnvironment, if_neg hne]
    refine ⟨_, hw, ?_⟩
    have hperm : (List.insertionSort (fun a b : List Char => a ≤ b)
        (env.map Prod.fst)).Perm (env.map Prod.fst) :=
      List.perm_insertionSort _ _
    have hks : ∀ p ∈ (List.insertionSort (fun a b : List Char => a ≤ b)
        (env.map Prod.fst)).map (fun k => (k, (env.lookup k).getD [])),
        p.1.all isIdentChar = true := by
      intro p hp
      rcases List.mem_map.mp hp with ⟨k, hk, rfl⟩
      exact hkeys k (hperm.mem_iff.mp hk)
    have hlen := entriesText_length ((List.insertionSort (fun a b : List Char => a ≤ b)
      (env.map Prod.fst)).map (fun k => (k, (env.lookup k).getD [])))
    have hHlen : envHeader.length = 84 := by decide
    refine ⟨(List.insertionSort (fun a b : List Char => a ≤ b) (env.map Prod.fst)).map
      (fun k => (k, (env.lookup k).getD [])), ?_, ?_, ?_⟩
    · rw [sourceFile, List.length_append]
      rw [show envHeader.length + (entriesText ((List.insertionSort
          (fun a b : List Char => a ≤ b) (env.map Prod.fst)).map
            (fun k => (k, (env.lookup k).getD [])))).length + 1 =
        ((entriesText ((List.insertionSort (fun a b : List Char => a ≤ b)
          (env.map Prod.fst)).map (fun k => (k, (env.lookup k).getD [])))).length + 82) + 3
        from by omega]
      rw [sourceLines_header]
      refine sourceLines_entries _ hks _ ?_
      have hmaplen : ((List.insertionSort (fun a b : List Char => a ≤ b)
          (env.map Prod.fst)).map (fun k => (k, (env.lookup k).getD []))).length =
          (List.insertionSort (fun a b : List Char => a ≤ b) (env.map Prod.fst)).length := by
        rw [List.length_map]
      omega
    · have hrec := lookup_reconstruct env hnd
      have h := hperm.map (fun k => (k, (env.lookup k).getD []))
      rw [hrec] at h
      exact h
    · rw [List.map_map]
      rw [show (Prod.fst ∘ fun k : List Char => (k, (env.lookup k).getD [])) = id from rfl]
      rw [List.map_id]
      exact List.sorted_insertionSort _ _

/-- Filtering that keeps every entry keyed `p` preserves the lookup at `p`. -/
theorem lookupFs_filter {f : FPath × FsEntry → Bool} {fs : Fs} {p : FPath}
    (hf : ∀ e : FsEntry, f (p, e) = true) :
    lookupFs (fs.filter f) p = lookupFs fs p := by
  induction fs with
  | nil => rfl
  | cons en rest ih =>
    rw [show lookupFs (en :: rest) p = if en.1 = p then some en.2 else lookupFs rest p from rfl]
    by_cases hk : en.1 = p
    · have hfe : f en = true := by
        obtain ⟨q, e⟩ := en
        show f (q, e) = true
        rw [show q = p from hk]
        exact hf e
      rw [List.filter_cons_of_pos hfe, lookupFs, if_pos hk, if_pos hk]
    · rw [if_neg hk, ← ih]
      cases hfe : f en with
      | true => rw [List.filter_cons_of_pos hfe, lookupFs, if_neg hk]
      | false => rw [List.filter_cons_of_neg (by simp [hfe])]

/-- Filtering that drops every entry keyed `p` empties the lookup at `p`. -/
theorem lookupFs_filter_none {f : FPath × FsEntry → Bool} {fs : Fs} {p : FPath}
    (hf : ∀ e : FsEntry, f (p, e) = false) :
    lookupFs (fs.filter f) p = none := by
  induction fs with
  | nil => rfl
  | cons en rest ih =>
    by_cases hk : en.1 = p
    · have hfe : f en = false := by
        obtain ⟨q, e⟩ := en
        show f (q, e) = false
        rw [show q = p from hk]
        exact hf e
      rw [List.filter_cons_of_neg (by simp [hfe])]
      exact ih
    · cases hfe : f en with
      | true =>
        rw [List.filter_cons_of_pos hfe, lookupFs, if_neg hk]
        exact ih
      | false =>
        rw [List.filter_cons_of_neg (by simp [hfe])]
        exact ih

/-- Writing at `p` is observed at `p`. -/
theorem lookupFs_setFs_self (fs : Fs) (p : FPath) (e : FsEntry) :
    lookupFs (setFs fs p e) p = some e := by
  rw [setFs, lookupFs, if_pos rfl]

/-- Writing at `p` is not observed elsewhere. -/
theorem lookupFs_setFs_ne (fs : Fs) (p : FPath) (e : FsEntry) {q : FPath} (h : q ≠ p) :
    lookupFs (setFs fs p e) q = lookupFs fs q := by
  rw [setFs, lookupFs, if_neg (fun hh => h hh.symm), eraseKeyFs]
  exact lookupFs_filter (fun e' => by simp [h])

/-- A hit in the front part of an append wins. -/
theorem lookupFs_append_some {a b : Fs} {p : FPath} {e : FsEntry}
    (h : lookupFs a p = some e) : lookupFs (a ++ b) p = some e := by
  induction a with
  | nil => cases h
  | cons en rest ih =>
    rw [List.cons_append, lookupFs]
    rw [lookupFs] at h
    by_cases hk : en.1 = p
    · rw [if_pos hk] at h ⊢
      exact h
    · rw [if_neg hk] at h ⊢
      exact ih h

/-- A miss in the front part of an append defers to the back part. -/
theorem lookupFs_append_none {a b : Fs} {p : FPath}
    (h : lookupFs a p = none) : lookupFs (a ++ b) p = lookupFs b p := by
  induction a with
  | nil => rfl
  | cons en rest ih =>
    rw [List.cons_append, lookupFs]
    rw [lookupFs] at h
    by_cases hk : en.1 = p
    · rw [if_pos hk] at h
      cases h
    · rw [if_neg hk] at h ⊢
      exact ih h

/-- A successful lookup exhibits a member of the association list. -/
theorem lookupFs_mem {fs : Fs} {p : FPath} {e : FsEntry}
    (h : lookupFs fs p = some e) : (p, e) ∈ fs := by
  induction fs with
  | nil => cases h
  | cons en rest ih =>
    rw [lookupFs] at h
    by_cases hk : en.1 = p
    · rw [if_pos hk] at h
      have : en = (p, e) := by
        obtain ⟨q, e'⟩ := en
        obtain rfl : q = p := hk
        obtain rfl : e' = e := by simpa using h
        rfl
      exact this ▸ List.mem_cons_self en rest
    · rw [if_neg hk] at h
      exact List.mem_cons_of_mem en (ih h)

/-- If no entry is keyed `p`, the lookup at `p` misses. -/
theorem lookupFs_eq_none {fs : Fs} {p : FPath}
    (h : ∀ en ∈ fs, en.1 ≠ p) : lookupFs fs p = none := by
  induction fs with
  | nil => rfl
  | cons en rest ih =>
    rw [lookupFs, if_neg (h en (List.mem_cons_self en rest))]
    exact ih (fun en' h' => h en' (List.mem_cons_of_mem en h'))

/-- A member's key is found. -/
theorem lookupFs_ne_none {fs : Fs} {en : FPath × FsEntry} (h : en ∈ fs) :
    lookupFs fs en.1 ≠ none := by
  induction fs with
  | nil => cases h
  | cons en' rest ih =>
    rw [lookupFs]
    by_cases hk : en'.1 = en.1
    · rw [if_pos hk]
      simp
    · rw [if_neg hk]
      rcases List.mem_cons.mp h with h' | h'
      · exact absurd (by rw [h']) hk
      · exact ih h'

/-- `mkdirs` touches only the listed paths. -/
theorem mkdirs_lookup {qs : List FPath} : ∀ {fs fs1 : Fs} {p : FPath},
    mkdirs fs qs = some fs1 → (∀ q ∈ qs, q ≠ p) → lookupFs fs1 p = lookupFs fs p := by
  induction qs with
  | nil =>
    intro fs fs1 p h _
    simp only [mkdirs, Option.some.injEq] at h
    rw [← h]
  | cons q qs ih =>
    intro fs fs1 p h hp
    simp only [mkdirs] at h
    cases hl : lookupFs fs q with
    | none =>
      rw [hl] at h
      rw [ih h (fun q' h' => hp q' (List.mem_cons_of_mem q h'))]
      exact lookupFs_setFs_ne fs q FsEntry.dir (hp q (List.mem_cons_self q qs)).symm |>.symm ▸
        (lookupFs_setFs_ne fs q FsEntry.dir ((hp q (List.mem_cons_self q qs)).symm))
    | some e =>
      cases e with
      | dir =>
        rw [hl] at h
        exact ih h (fun q' h' => hp q' (List.mem_cons_of_mem q h'))
      | file c =>
        rw [hl] at h
        cases h
      | symlink t =>
        rw [hl] at h
        cases h

/-- `mkdirs` never unmakes a directory. -/
theorem mkdirs_dir_mono {qs : List FPath} : ∀ {fs fs1 : Fs} {p : FPath},
    mkdirs fs qs = some fs1 → lookupFs fs p = some .dir → lookupFs fs1 p = some .dir := by
  induction qs with
  | nil =>
    intro fs fs1 p h hd
    simp only [mkdirs, Option.some.injEq] at h
    rw [← h]
    exact hd
  | cons q qs ih =>
    intro fs fs1 p h hd
    simp only [mkdirs] at h
    cases hl : lookupFs fs q with
    | none =>
      rw [hl] at h
      refine ih h ?_
      by_cases hpq : p = q
      · subst hpq
        rw [lookupFs_setFs_self]
      · rw [lookupFs_setFs_ne fs q FsEntry.dir hpq]
        exact hd
    | some e =>
      cases e with
      | dir =>
        rw [hl] at h
        exact ih h hd
      | file c =>
        rw [hl] at h
        cases h
      | symlink t =>
        rw [hl] at h
        cases h

/-- After a successful `mkdirs`, every listed path is a directory. -/
theorem mkdirs_dirs {qs : List FPath} : ∀ {fs fs1 : Fs},
    mkdirs fs qs = some fs1 → ∀ q ∈ qs, lookupFs fs1 q = some .dir := by
  induction qs with
  | nil =>
    intro fs fs1 _ q hq
    cases hq
  | cons q qs ih =>
    intro fs fs1 h q' hq'
    simp only [mkdirs] at h
    cases hl : lookupFs fs q with
    | none =>
      rw [hl] at h
      rcases List.mem_cons.mp hq' with rfl | h'
      · exact mkdirs_dir_mono h (lookupFs_setFs_self fs q' FsEntry.dir)
      · exact ih h q' h'
    | some e =>
      cases e with
      | dir =>
        rw [hl] at h
        rcases List.mem_cons.mp hq' with rfl | h'
        · exact mkdirs_dir_mono h hl
        · exact ih h q' h'
      | file c =>
        rw [hl] at h
        cases h
      | symlink t =>
        rw [hl] at h
        cases h

/-- Every entry after `mkdirs` is an original entry or a created directory. -/
theorem mkdirs_mem {qs : List FPath} : ∀ {fs fs1 : Fs},
    mkdirs fs qs = some fs1 → ∀ en ∈ fs1, en ∈ fs ∨ (en.1 ∈ qs ∧ en.2 = .dir) := by
  induction qs with
  | nil =>
    intro fs fs1 h en hen
    simp only [mkdirs, Option.some.injEq] at h
    exact Or.inl (h ▸ hen)
  | cons q qs ih =>
    intro fs fs1 h en hen
    simp only [mkdirs] at h
    cases hl : lookupFs fs q with
    | none =>
      rw [hl] at h
      rcases ih h en hen with h' | h'
      · rw [setFs] at h'
        rcases List.mem_cons.mp h' with rfl | h''
        · exact Or.inr ⟨List.mem_cons_self q qs, rfl⟩
        · exact Or.inl (List.mem_of_mem_filter h'')
      · exact Or.inr ⟨List.mem_cons_of_mem q h'.1, h'.2⟩
    | some e =>
      cases e with
      | dir =>
        rw [hl] at h
        rcases ih h en hen with h' | h'
        · exact Or.inl h'
        · exact Or.inr ⟨List.mem_cons_of_mem q h'.1, h'.2⟩
      | file c =>
        rw [hl] at h
        cases h
      | symlink t =>
        rw [hl] at h
        cases h

/-- No prefix of `t.dropLast` reaches down to `t`. -/
theorem prefixesOf_dropLast_not_pre {t : FPath} :
    ∀ q ∈ prefixesOf t.dropLast, ¬ t <+: q := by
  intro q hq ht
  simp only [prefixesOf, List.mem_map, List.mem_range] at hq
  obtain ⟨i, hi, rfl⟩ := hq
  have h1 : t.length ≤ (t.dropLast.take (i + 1)).length := ht.length_le
  have h2 : (t.dropLast.take (i + 1)).length ≤ t.dropLast.length := by
    rw [List.length_take]
    exact Nat.min_le_right _ _
  have h3 : t.dropLast.length = t.length - 1 := List.length_dropLast t
  omega

/-- Every listed prefix of `t.dropLast` is a prefix of `t`. -/
theorem prefixesOf_dropLast_pre {t : FPath} :
    ∀ q ∈ prefixesOf t.dropLast, q <+: t := by
  intro q hq
  simp only [prefixesOf, List.mem_map, List.mem_range] at hq
  obtain ⟨i, _, rfl⟩ := hq
  exact (List.take_prefix _ _).trans (List.dropLast_prefix t)

/-- Looking below `dst` in the remapped copy of the subtree below `src` is
looking below `src` in the original. -/
theorem lookupFs_copied {src dst : FPath} : ∀ (fs : Fs) (r : FPath),
    lookupFs ((entriesUnder fs src).map (fun en => (dst ++ en.1, en.2))) (dst ++ r) =
      lookupFs fs (src ++ r) := by
  intro fs r
  induction fs with
  | nil => rfl
  | cons en rest ih =>
    obtain ⟨q, e⟩ := en
    by_cases hpre : src <+: q
    · obtain ⟨t, rfl⟩ := hpre
      rw [show entriesUnder ((src ++ t, e) :: rest) src = (t, e) :: entriesUnder rest src
        from by simp [entriesUnder, List.filterMap_cons, List.prefix_append, List.drop_left]]
      rw [List.map_cons]
      by_cases htr : t = r
      · subst htr
        rw [lookupFs, if_pos rfl, lookupFs, if_pos rfl]
      · rw [lookupFs, if_neg (by simpa using htr), lookupFs, if_neg (by simpa using htr)]
        exact ih
    · rw [show entriesUnder ((q, e) :: rest) src = entriesUnder rest src
        from by simp [entriesUnder, List.filterMap_cons, hpre]]
      rw [show lookupFs ((q, e) :: rest) (src ++ r) = lookupFs rest (src ++ r) from by
        rw [lookupFs, if_neg (fun h => hpre (by
          simp only at h
          rw [h]
          exact List.prefix_append _ _))]]
      exact ih

/-- C5: for a file mount on a well-formed filesystem (entries below an
unoccupied target cannot exist, source and target subtrees disjoint, no
symlinks below the source — Go's `copyFile` follows links, so the structural
copy model speaks only about symlink-free sources): a missing source is an
error; on success the target's parent directories exist as directories, a
read-only mount leaves a symlink at the target whose link target is the
source path, a writable mount leaves a recursive copy of the source subtree
at the target (whatever previously occupied the target, it is gone), the
source subtree is untouched, and mutating the workspace copy below the
target never alters anything below the source. -/
theorem handleFile_spec (fs : Fs) (fm : FileMount)
    (hroot : lookupFs fs fm.target = none → ∀ en ∈ fs, ¬ fm.target <+: en.1)
    (hdisj1 : ¬ fm.target <+: fm.source)
    (hdisj2 : ¬ fm.source <+: fm.target)
    (hnosym : ∀ r t, lookupFs fs (fm.source ++ r) ≠ some (.symlink t)) :
    (lookupFs fs fm.source = none → handleFile fs fm = none) ∧
    (∀ fs', handleFile fs fm = some fs' →
      (∀ q ∈ prefixesOf fm.target.dropLast, lookupFs fs' q = some .dir) ∧
      (fm.readOnly = true → lookupFs fs' fm.target = some (.symlink fm.source)) ∧
      (fm.readOnly = false →
        ∀ r, lookupFs fs' (fm.target ++ r) = lookupFs fs (fm.source ++ r)) ∧
      (∀ r, lookupFs fs' (fm.source ++ r) = lookupFs fs (fm.source ++ r)) ∧
      (∀ p c, fm.target <+: p → ∀ r,
        lookupFs (setFs fs' p (.file c)) (fm.source ++ r) =
          lookupFs fs' (fm.source ++ r))) := by
  have hnt : ∀ r, ¬ fm.target <+: fm.source ++ r := by
    intro r h
    rcases List.prefix_or_prefix_of_prefix h (List.prefix_append fm.source r) with h' | h'
    · exact hdisj1 h'
    · exact hdisj2 h'
  constructor
  · intro h
    unfold handleFile
    rw [h]
  · intro fs' hok
    cases hsrc : lookupFs fs fm.source with
    | none =>
      unfold handleFile at hok
      rw [hsrc] at hok
      exact Option.noConfusion hok
    | some se =>
      cases hmk : mkdirAll fs fm.target.dropLast with
      | none =>
        unfold handleFile at hok
        rw [hsrc, hmk] at hok
        exact Option.noConfusion hok
      | some fs1 =>
        unfold handleFile at hok
        rw [hsrc, hmk] at hok
        dsimp only at hok
        have hmk' : mkdirs fs (prefixesOf fm.target.dropLast) = some fs1 := by
          rw [mkdirAll] at hmk
          exact hmk
        have hq_ne_t : ∀ q ∈ prefixesOf fm.target.dropLast, q ≠ fm.target := by
          intro q hq he
          exact prefixesOf_dropLast_not_pre q hq (he ▸ List.prefix_rfl)
        have hparents1 : ∀ q ∈ prefixesOf fm.target.dropLast, lookupFs fs1 q = some .dir :=
          mkdirs_dirs hmk'
        have htgt1 : lookupFs fs1 fm.target = lookupFs fs fm.target :=
          mkdirs_lookup hmk' (fun q hq => hq_ne_t q hq)
        set fs2 := if (lookupFs fs1 fm.target).isSome then removeAllFs fs1 fm.target else fs1
          with hfs2
        have hfs2_not_under : ∀ en ∈ fs2, ¬ fm.target <+: en.1 := by
          rw [hfs2]
          by_cases hex : (lookupFs fs1 fm.target).isSome
          · rw [if_pos hex]
            intro en hen
            simpa using (List.mem_filter.mp hen).2
          · rw [if_neg hex]
            intro en hen ht
            have hnone1 : lookupFs fs1 fm.target = none := by
              cases hl : lookupFs fs1 fm.target with
              | none => rfl
              | some e => rw [hl] at hex; simp at hex
            have hnonefs : lookupFs fs fm.target = none := by
              rw [← htgt1]
              exact hnone1
            rcases mkdirs_mem hmk' en hen with hin | hadd
            · exact hroot hnonefs en hin ht
            · exact prefixesOf_dropLast_not_pre en.1 hadd.1 ht
        have hfs2_lookup : ∀ p, ¬ fm.target <+: p → lookupFs fs2 p = lookupFs fs1 p := by
          intro p hp
          rw [hfs2]
          by_cases hex : (lookupFs fs1 fm.target).isSome
          · rw [if_pos hex, removeAllFs]
            exact lookupFs_filter (fun e => by simp [hp])
          · rw [if_neg hex]
        have hsrc_pres : ∀ r, lookupFs fs2 (fm.source ++ r) = lookupFs fs (fm.source ++ r) := by
          intro r
          rw [hfs2_lookup _ (hnt r)]
          refine mkdirs_lookup hmk' ?_
          intro q hq he
          refine hdisj2 ?_
          have h1 : q <+: fm.target := prefixesOf_dropLast_pre q hq
          rw [he] at h1
          exact (List.prefix_append fm.source r).trans h1
        have hparents2 : ∀ q ∈ prefixesOf fm.target.dropLast, lookupFs fs2 q = some .dir := by
          intro q hq
          rw [hfs2_lookup q (prefixesOf_dropLast_not_pre q hq)]
          exact hparents1 q hq
        cases hro : fm.readOnly with
        | true =>
          rw [hro, if_pos rfl] at hok
          obtain rfl : fs' = setFs fs2 fm.target (.symlink fm.source) := by
            injection hok with h
            exact h.symm
          refine ⟨?_, ?_, ?_, ?_, ?_⟩
          · intro q hq
            rw [lookupFs_setFs_ne _ _ _ (hq_ne_t q hq)]
            exact hparents2 q hq
          · intro _
            exact lookupFs_setFs_self _ _ _
          · intro hfalse
            exact Bool.noConfusion hfalse
          · intro r
            rw [lookupFs_setFs_ne _ _ _ (fun he => hnt r (by rw [he]))]
            exact hsrc_pres r
          · intro p c hp r
            rw [lookupFs_setFs_ne _ _ _ (fun he => hnt r (by rw [he]; exact hp))]
        | false =>
          rw [hro] at hok
          rw [if_neg (by simp)] at hok
          obtain rfl : fs' = copyTree fs2 fm.source fm.target := by
            injection hok with h
            exact h.symm
          have hcop_keys : ∀ en ∈ (entriesUnder fs2 fm.source).map
              (fun en => (fm.target ++ en.1, en.2)), fm.target <+: en.1 := by
            intro en hen
            rcases List.mem_map.mp hen with ⟨en0, _, rfl⟩
            exact List.prefix_append _ _
          refine ⟨?_, ?_, ?_, ?_, ?_⟩
          · intro q hq
            rw [copyTree, lookupFs_append_none (lookupFs_eq_none (fun en hen he =>
              prefixesOf_dropLast_not_pre q hq (by rw [← he]; exact hcop_keys en hen)))]
            exact hparents2 q hq
          · intro htrue
            exact Bool.noConfusion htrue
          · intro _ r
            rw [copyTree]
            cases hfl : lookupFs fs2 (fm.source ++ r) with
            | some e =>
              have hc : lookupFs ((entriesUnder fs2 fm.source).map
                  (fun en => (fm.target ++ en.1, en.2))) (fm.target ++ r) = some e := by
                rw [lookupFs_copied]
                exact hfl
              rw [lookupFs_append_some hc, ← hsrc_pres r, hfl]
            | none =>
              have hc : lookupFs ((entriesUnder fs2 fm.source).map
                  (fun en => (fm.target ++ en.1, en.2))) (fm.target ++ r) = none := by
                rw [lookupFs_copied]
                exact hfl
              rw [lookupFs_append_none hc]
              have h2 : lookupFs fs2 (fm.target ++ r) = none :=
                lookupFs_eq_none (fun en hen he =>
                  hfs2_not_under en hen (by rw [he]; exact List.prefix_append _ _))
              rw [h2, ← hsrc_pres r, hfl]
          · intro r
            rw [copyTree]
            have hc : lookupFs ((entriesUnder fs2 fm.source).map
                (fun en => (fm.target ++ en.1, en.2))) (fm.source ++ r) = none :=
              lookupFs_eq_none (fun en hen he => hnt r (by rw [← he]; exact hcop_keys en hen))
            rw [lookupFs_append_none hc]
            exact hsrc_pres r
          · intro p c hp r
            rw [lookupFs_setFs_ne _ _ _ (fun he => hnt r (by rw [he]; exact hp))]

/-- C5 witness: a writable mount of a file into the workspace, evaluated at a
concrete filesystem, leaves the copy at the target equal to the source. -/
theorem handleFile_spec_witness :
    handleFile [(["src"], FsEntry.file "data")] ⟨["src"], ["w", "cfg"], false⟩ =
      some [(["w", "cfg"], FsEntry.file "data"), (["w"], FsEntry.dir),
            (["src"], FsEntry.file "data")] ∧
    lookupFs [(["w", "cfg"], FsEntry.file "data"), (["w"], FsEntry.dir),
        (["src"], FsEntry.file "data")] (["w", "cfg"] ++ []) =
      lookupFs [(["src"], FsEntry.file "data")] (["src"] ++ []) := by
  refine ⟨by decide, ?_⟩
  have h := (handleFile_spec [(["src"], FsEntry.file "data")] ⟨["src"], ["w", "cfg"], false⟩
    (by intro _; decide) (by decide) (by decide)
    (fun r t hmem => by
      have hm := lookupFs_mem hmem
      simp at hm)).2
    [(["w", "cfg"], FsEntry.file "data"), (["w"], FsEntry.dir), (["src"], FsEntry.file "data")]
    (by decide)
  exact h.2.2.1 rfl []

/-- C3 witness: the empty map writes nothing; a two-variable map (unsorted,
with a quoted value) round-trips, via the round-trip theorem at that input. -/
theorem writeEnvironment_roundtrip_witness :
    writeEnvironment [] = none ∧
    (∃ content, writeEnvironment [(['B'], ['y']), (['A'], ['x', squote])] = some content ∧
      ∃ out, sourceFile content = some out ∧
        out.Perm [(['B'], ['y']), (['A'], ['x', squote])] ∧
        (out.map Prod.fst).Sorted (· ≤ ·)) :=
  ⟨(writeEnvironment_roundtrip [] (by decide) (by decide)).1 rfl,
   (writeEnvironment_roundtrip [(['B'], ['y']), (['A'], ['x', squote])]
      (by decide) (by decide)).2 (by decide)⟩

end Choir
